import Mathlib

/-!
Verification development for the `prom-scrape-analyzer` scrape-and-aggregate
pipeline (`pkg/scrape/series.go`, `pkg/scrape/scraper.go`, `cmd/cardinality.go`).

Modeling conventions, used throughout:

* Go maps are embedded as association lists (`List (κ × ν)`) iterated in
  insertion order.  Go's map iteration order is unspecified; insertion order is
  one realizable order, so statements quantified over "every SeriesSet" are
  settled against this deterministic refinement, and counterexamples built
  from a concrete association list exhibit one reachable iteration order.
* `labels.Labels.Hash()` is a fingerprint of the full label set used as an
  identity key.  It is embedded as the name-sorted label list itself (a
  collision-free fingerprint): two label sets share a hash key exactly when
  they are the same set of pairs.
* Byte bodies are `List Nat`; sizes are `Nat`.
* Floating-point sample values, exemplars and wall-clock default timestamps
  are not inspected by any statistic under verification and are omitted from
  the embedded `Series` record, which follows the struct in
  `pkg/scrape/series.go` (`Name`, `Labels`, `Type`, `CreatedTimestamp`).
-/

namespace PromScrape

/-- Embeds `labels.Labels`: an ordered list of (name, value) pairs. -/
abbrev LabelSet := List (String × String)

/-- Embeds `labels.Labels.Get`: the value of the first label with the given
name, `""` when no such label exists. -/
def labelsGet (ls : LabelSet) (name : String) : String :=
  match ls with
  | [] => ""
  | l :: rest => if l.1 = name then l.2 else labelsGet rest name

/-- Embeds `labels.Labels.Hash()`: the identity fingerprint of a full label
set (including `__name__`).  `labels.Labels` is a name-sorted vector, so two
equal label sets are the same list; the fingerprint is modeled as the label
list itself, a collision-free key with the same role as the 64-bit hash. -/
def lsetHash (ls : LabelSet) : LabelSet := ls

/-- Embeds the `Series` struct of `pkg/scrape/series.go`.  `Ty` embeds the Go
field `Type` (a Lean keyword). -/
structure Series where
  Name : String
  Labels : LabelSet
  Ty : String
  CreatedTimestamp : Int
deriving DecidableEq, Repr

/-- Embeds `SeriesSet = map[uint64]Series` as an insertion-ordered
association list from label-set hash to series. -/
abbrev SeriesSet := List (LabelSet × Series)

/-- Embeds `SeriesMap = map[string]SeriesSet`. -/
abbrev SeriesMap := List (String × SeriesSet)

/-- Association-list lookup, embedding Go map indexing `m[k]` (found case). -/
def alookup {κ ν : Type} [DecidableEq κ] : List (κ × ν) → κ → Option ν
  | [], _ => none
  | p :: rest, k => if p.1 = k then some p.2 else alookup rest k

/-- Association-list store, embedding Go map assignment `m[k] = v`:
overwrites the entry for `k` in place, or appends a fresh entry. -/
def aset {κ ν : Type} [DecidableEq κ] : List (κ × ν) → κ → ν → List (κ × ν)
  | [], k, v => [(k, v)]
  | p :: rest, k, v => if p.1 = k then (k, v) :: rest else p :: aset rest k v

/-- The keys of an association list, in iteration order. -/
def akeys {κ ν : Type} (m : List (κ × ν)) : List κ := m.map Prod.fst

/-- Embeds `SeriesSet.Cardinality()`: `len(s)`. -/
def Cardinality (s : SeriesSet) : Nat := s.length

/-- The `v.Type == "" → "unknown"` normalization inside `MetricTypeString`. -/
def normalizeType (t : String) : String := if t = "" then "unknown" else t

/-- The accumulator loop of `SeriesSet.MetricTypeString()`: walks the member
series (map iteration order), normalizes empty types to `"unknown"`, and
appends a type to `typeStr` (separated by `"|"`) whenever it differs from
`lastType`, the most recently appended type. -/
def mtsLoop : List String → String → String → String
  | [], typeStr, _ => typeStr
  | t0 :: rest, typeStr, lastType =>
    let t := normalizeType t0
    if lastType ≠ t then
      mtsLoop rest (if typeStr ≠ "" then typeStr ++ "|" ++ t else typeStr ++ t) t
    else
      mtsLoop rest typeStr lastType

/-- Embeds `SeriesSet.MetricTypeString()`. -/
def MetricTypeString (s : SeriesSet) : String :=
  if s.length = 0 then "" else mtsLoop (s.map fun p => p.2.Ty) "" ""

/-- Embeds the `LabelStats` struct of `pkg/scrape/series.go`. -/
structure LabelStat where
  Name : String
  DistinctValues : Nat
deriving DecidableEq, Repr

/-- Adding one value to an inner value set of `labelValueSet`
(`labelValueSet[l.Name][l.Value] = struct{}{}`): a no-op when present. -/
def addVal (vs : List String) (v : String) : List String :=
  if v ∈ vs then vs else vs ++ [v]

/-- One insertion into the nested `labelValueSet` map of
`SeriesSet.LabelStats()`: record `value` in the value set of label `name`,
creating the inner set when absent and skipping values already present. -/
def addValue (m : List (String × List String)) (name value : String) :
    List (String × List String) :=
  match m with
  | [] => [(name, [value])]
  | p :: rest =>
    if p.1 = name then (p.1, addVal p.2 value) :: rest
    else p :: addValue rest name value

/-- The per-label step of the `LabelStats` loops: labels named `__name__`
are excluded, every other (name, value) pair is added to `labelValueSet`. -/
def addLabel (m : List (String × List String)) (l : String × String) :
    List (String × List String) :=
  if l.1 ≠ "__name__" then addValue m l.1 l.2 else m

/-- The two nested loops of `SeriesSet.LabelStats()` building
`labelValueSet : map[string]map[string]struct{}`. -/
def collectLabelValues (s : SeriesSet) : List (String × List String) :=
  s.foldl (fun m p => p.2.Labels.foldl addLabel m) []

/-- Embeds `SeriesSet.LabelStats()`: per label name (excluding `__name__`),
the number of distinct values it takes across the set, in map iteration
order (no sorting happens here; `AsRows` sorts the result for display). -/
def LabelStats (s : SeriesSet) : List LabelStat :=
  if s.length = 0 then [] else (collectLabelValues s).map fun p => ⟨p.1, p.2.length⟩

/-- The comparison used by `SeriesMap.AsRows()` to sort label stats:
descending by `DistinctValues`. -/
def statGE (a b : LabelStat) : Prop := b.DistinctValues ≤ a.DistinctValues

instance : DecidableRel statGE := fun a b => Nat.decLe b.DistinctValues a.DistinctValues

instance : IsTotal LabelStat statGE :=
  ⟨fun a b => Nat.le_total b.DistinctValues a.DistinctValues⟩

instance : IsTrans LabelStat statGE :=
  ⟨fun _ _ _ h1 h2 => Nat.le_trans h2 h1⟩

/-- Embeds the `slices.SortFunc(lblStats, ...)` call in `SeriesMap.AsRows()`
(`series.go`), which sorts the `LabelStats()` output by descending
`DistinctValues` before display.  `slices.SortFunc` guarantees a sorted
permutation (tie order unspecified); insertion sort is one such sort. -/
def sortedLabelStats (s : SeriesSet) : List LabelStat :=
  List.insertionSort statGE (LabelStats s)

/-!
## The exposition parser loop (`extractMetrics`, `pkg/scrape/scraper.go`)

`textparse.Parser.Next()` yields a stream of typed entries; `extractMetrics`
folds them into a `SeriesMap`.  The entry stream is embedded as a list:

* `typEntry name ty` — `textparse.EntryType`: `parser.Type()` returned
  (`name`, `ty`); the loop records them as `baseMetricName`/`currentType`.
* `seriesEntry lset ct` — `textparse.EntrySeries` with label set `lset` and
  created timestamp `ct` (`parser.CreatedTimestamp()`, `0` when absent).
* `histogramEntry lset ct` — `textparse.EntryHistogram` (native histogram).
* `badEntry` — `parser.Next()` returned a non-EOF error: logged and skipped.
* `otherEntry` — any other entry kind (help, unit, comment): the `default`
  branch logs and skips it.

The sample timestamp and exemplars carried by an entry are used only for
debug logging / fields outside the embedded struct and are omitted.
-/

/-- One parsed exposition entry, as consumed by the `extractMetrics` loop. -/
inductive Entry where
  | typEntry (metricName metricType : String)
  | seriesEntry (lset : LabelSet) (ct : Int)
  | histogramEntry (lset : LabelSet) (ct : Int)
  | badEntry
  | otherEntry
deriving DecidableEq, Repr

/-- The mutable state of the `extractMetrics` loop. -/
structure ParseState where
  metrics : SeriesMap
  currentType : String
  baseMetricName : String
deriving Repr

/-- Embeds the Go pair
`if _, ok := metrics[name]; !ok { metrics[name] = make(SeriesSet) }` followed
by `metrics[name][hash] = series`: store `s` under hash `h` in family `fam`. -/
def insertSeries (m : SeriesMap) (fam : String) (h : LabelSet) (s : Series) : SeriesMap :=
  aset m fam (aset ((alookup m fam).getD []) h s)

/-- One iteration of the `extractMetrics` loop on one parsed entry. -/
def extractStep (st : ParseState) (e : Entry) : ParseState :=
  match e with
  | .typEntry name ty => { st with currentType := ty, baseMetricName := name }
  | .seriesEntry lset ct =>
    let metricName := labelsGet lset "__name__"
    if metricName = "" then st
    else
      let metricName :=
        if st.currentType = "histogram" ∨ st.currentType = "summary" then
          st.baseMetricName
        else metricName
      let series : Series :=
        { Name := metricName, Labels := lset, Ty := st.currentType, CreatedTimestamp := ct }
      { st with metrics := insertSeries st.metrics metricName (lsetHash lset) series }
  | .histogramEntry lset ct =>
    let metricName := labelsGet lset "__name__"
    if metricName = "" then st
    else
      let series : Series :=
        { Name := metricName, Labels := lset, Ty := "native_histogram", CreatedTimestamp := ct }
      { st with metrics := insertSeries st.metrics metricName (lsetHash lset) series }
  | .badEntry => st
  | .otherEntry => st

/-- The initial loop state: empty map, empty `currentType`/`baseMetricName`. -/
def initState : ParseState := ⟨[], "", ""⟩

/-- Embeds the entry-processing phase of
`PromScraper.extractMetrics(body, contentType)`: fold the parsed entry
stream into a `SeriesMap`.  (Parser construction failure, the only aborting
error of `extractMetrics`, happens before this loop and is orthogonal to
the per-entry behavior modeled here.) -/
def extractMetrics (entries : List Entry) : SeriesMap :=
  (entries.foldl extractStep initState).metrics

/-- The series the loop builds for an accepted plain series entry. -/
def mkSeries (name : String) (lset : LabelSet) (ty : String) (ct : Int) : Series :=
  { Name := name, Labels := lset, Ty := ty, CreatedTimestamp := ct }

/-- The insertions `extractMetrics` performs, in order: for each accepted
entry, the (family key, label-set hash, stored series) triple, computed with
the same `currentType`/`baseMetricName` scan as the loop itself.  This is
the exact sequence fed to the series aggregator (`metrics[name][hash] = s`). -/
def filedTriplesFrom (ty base : String) : List Entry → List (String × LabelSet × Series)
  | [] => []
  | .typEntry n t :: rest => filedTriplesFrom t n rest
  | .seriesEntry lset ct :: rest =>
    let nm := labelsGet lset "__name__"
    if nm = "" then filedTriplesFrom ty base rest
    else
      let nm' := if ty = "histogram" ∨ ty = "summary" then base else nm
      (nm', lsetHash lset, mkSeries nm' lset ty ct) :: filedTriplesFrom ty base rest
  | .histogramEntry lset ct :: rest =>
    let nm := labelsGet lset "__name__"
    if nm = "" then filedTriplesFrom ty base rest
    else
      (nm, lsetHash lset, mkSeries nm lset "native_histogram" ct) :: filedTriplesFrom ty base rest
  | .badEntry :: rest => filedTriplesFrom ty base rest
  | .otherEntry :: rest => filedTriplesFrom ty base rest

/-- The aggregation of a sequence of (family, hash, series) insertions into
a `SeriesMap`, starting from `m`: the series-aggregator core shared by the
plain-series and native-histogram branches of `extractMetrics`. -/
def aggregateFrom (m : SeriesMap) : List (String × LabelSet × Series) → SeriesMap
  | [] => m
  | t :: rest => aggregateFrom (insertSeries m t.1 t.2.1 t.2.2) rest

/-- The `SeriesSet` stored for family `fam` (empty when the family is absent). -/
def setOf (m : SeriesMap) (fam : String) : SeriesSet := (alookup m fam).getD []

/-- `Cardinality` of the set a `SeriesMap` holds for one family. -/
def cardinalityOf (m : SeriesMap) (fam : String) : Nat := Cardinality (setOf m fam)

/-!
## Source reading (`readResponse`, `scrapeFile`) and scrape dispatch
-/

/-- The error outcomes of the read paths in `scraper.go`. -/
inductive ReadErr where
  | sizeLimitExceeded (limit : Nat)
  | httpStatus (status : Nat)
deriving DecidableEq, Repr

/-- Embeds `io.ReadAll(io.LimitReader(r, maxBodySize))`: at most `limit`
bytes are consumed from the stream. -/
def limitReadAll (body : List Nat) (limit : Nat) : List Nat := body.take limit

/-- Embeds `PromScraper.readResponse(resp)`: reject non-200 statuses, read
through a limit reader, and fail when the bytes read reach `maxBodySize`.
`body` is the byte stream the limit reader consumes — the decompressed body
when `Content-Encoding: gzip` made the code wrap `resp.Body` in a
`gzip.Reader`, the raw body otherwise; the limit therefore applies to the
decompressed size. -/
def readResponse (status : Nat) (body : List Nat) (limit : Nat) :
    Except ReadErr (List Nat) :=
  if status ≠ 200 then .error (.httpStatus status)
  else
    let b := limitReadAll body limit
    if limit ≤ b.length then .error (.sizeLimitExceeded limit) else .ok b

/-- Embeds the read phase of `PromScraper.scrapeFile()`: the file is opened
and read through `io.LimitReader(f, ps.maxBodySize)`, then the same
`len(body) >= ps.maxBodySize` check rejects bodies at or above the limit. -/
def scrapeFileRead (fileBody : List Nat) (limit : Nat) : Except ReadErr (List Nat) :=
  let b := limitReadAll fileBody limit
  if limit ≤ b.length then .error (.sizeLimitExceeded limit) else .ok b

/-- What `PromScraper.Scrape()` decides to do, before any I/O. -/
inductive ScrapeAction where
  | fileRead (path : String)
  | httpFetch (url : String)
deriving DecidableEq, Repr

/-- Embeds the body of `PromScraper.Scrape()` (`scraper.go` lines 85–91):
`if ps.scrapeFilePath != "" { return ps.scrapeFile() }; return ps.scrapeHTTP()`.
No configuration validation happens here. -/
def scrapeDispatch (scrapeURL scrapeFilePath : String) : ScrapeAction :=
  if scrapeFilePath ≠ "" then .fileRead scrapeFilePath else .httpFetch scrapeURL

/-- The configuration errors of `registerCardinalityCommand`. -/
inductive ConfigErr where
  | noSource
  | mutuallyExclusive
deriving DecidableEq, Repr

/-- Embeds the source checks of `registerCardinalityCommand`
(`cmd/cardinality.go` lines 513–520), run before the scraper is even
constructed: no source at all, then both sources at once. -/
def validateSources (scrapeURL scrapeFile : String) : Option ConfigErr :=
  if scrapeURL = "" ∧ scrapeFile = "" then some .noSource
  else if scrapeURL ≠ "" ∧ scrapeFile ≠ "" then some .mutuallyExclusive
  else none

/-!
## Protocol negotiation (`acceptHeader`, `scraper.go`)
-/

/-- Embeds `config.ScrapeProtocol` (prometheus/config, the Prometheus v3
dependency this repository builds against). -/
inductive ScrapeProtocol where
  | PrometheusProto
  | PrometheusText0_0_4
  | PrometheusText1_0_0
  | OpenMetricsText0_0_1
  | OpenMetricsText1_0_0
deriving DecidableEq, Repr

/-- Embeds the `config.ScrapeProtocolsHeaders` table of prometheus/config
(Prometheus v3, matching the `textparse.New`/`parser.Labels`/
`parser.CreatedTimestamp` API `scraper.go` uses): five entries, including
`PrometheusText1.0.0` added in v3. -/
def ScrapeProtocolsHeaders : ScrapeProtocol → String
  | .PrometheusProto =>
    "application/vnd.google.protobuf;proto=io.prometheus.client.MetricFamily;encoding=delimited"
  | .PrometheusText0_0_4 => "text/plain;version=0.0.4"
  | .PrometheusText1_0_0 => "text/plain;version=1.0.0;escaping=allow-utf-8"
  | .OpenMetricsText0_0_1 => "application/openmetrics-text;version=0.0.1"
  | .OpenMetricsText1_0_0 => "application/openmetrics-text;version=1.0.0"

/-- `len(config.ScrapeProtocolsHeaders)`: the table above has 5 entries. -/
def scrapeProtocolsHeadersLen : Nat := 5

/-- The loop of `acceptHeader`: emit `"<header>;q=0.<weight>"` for each
requested protocol, decrementing `weight`, then the `"*/*;q=0.<weight>"`
fallback.  `weight` is an integer printed with `%d`, as in
`fmt.Sprintf("%s;q=0.%d", ...)`. -/
def acceptParts : List ScrapeProtocol → Int → List String
  | [], weight => ["*/*;q=0." ++ toString weight]
  | sp :: rest, weight =>
    (ScrapeProtocolsHeaders sp ++ ";q=0." ++ toString weight) :: acceptParts rest (weight - 1)

/-- Embeds `acceptHeader(sps)` (`scraper.go` lines 543–553): the loop above
started at `weight := len(config.ScrapeProtocolsHeaders) + 1`, joined with
`","`. -/
def acceptHeader (sps : List ScrapeProtocol) : String :=
  String.intercalate "," (acceptParts sps (scrapeProtocolsHeadersLen + 1))

/-- The protocol preference order of the primary (statistics) fetch. -/
def primaryAcceptProtocols : List ScrapeProtocol :=
  [.PrometheusProto, .OpenMetricsText1_0_0, .PrometheusText0_0_4, .OpenMetricsText0_0_1]

/-!
## The concurrent dual fetch (`scrapeHTTP`, `scraper.go` lines 137–240)

`scrapeHTTP` launches two goroutines against the same URL and joins them
with `wg.Wait()`.  Each goroutine body is a straight-line sequence of
fallible steps; its contribution to the shared variables at the join is a
pure function of where (if anywhere) it first failed.  The join itself is
sequential code.  The embedding below models each goroutine by its outcome
and the join by the code after `wg.Wait()`; this sequentialization is exact
because the two goroutines share no mutable state with each other, and any
interleaving yields the same variable values at the join.
-/

/-- Where a fetch goroutine first failed, or its successful value.  The four
failure points are `ps.setupRequest`, `httpClient.Do`, `ps.readResponse` and
`ps.extractMetrics` (the secondary's text extraction cannot fail). -/
inductive FetchOutcome (ε α : Type) where
  | setupFailed (e : ε)
  | doFailed (e : ε)
  | readFailed (e : ε)
  | parseFailed (e : ε)
  | ok (v : α)
deriving DecidableEq, Repr

/-- The (`scrapeErr`, `seriesSet`) pair the primary goroutine leaves at the
join.  Mirrors the code exactly: a `setupRequest` failure makes the
goroutine `return` WITHOUT assigning `scrapeErr`, so that error is dropped;
every later failure is recorded in `scrapeErr`. -/
def primaryOutcome {ε α : Type} : FetchOutcome ε α → Option ε × Option α
  | .setupFailed _ => (none, none)
  | .doFailed e => (some e, none)
  | .readFailed e => (some e, none)
  | .parseFailed e => (some e, none)
  | .ok v => (none, some v)

/-- The (`textScrapeErr`, `seriesScrapeText`) pair the secondary goroutine
leaves at the join: here every failure, including `setupRequest`, is
recorded. -/
def secondaryOutcome {ε β : Type} : FetchOutcome ε β → Option ε × Option β
  | .setupFailed e => (some e, none)
  | .doFailed e => (some e, none)
  | .readFailed e => (some e, none)
  | .parseFailed e => (some e, none)
  | .ok v => (none, some v)

/-- The fields of the returned `Result` relevant to partiality: the parsed
series map from the primary fetch and the raw-text index from the secondary. -/
structure ScrapeResult (α β : Type) where
  Series : Option α
  SeriesScrapeText : Option β
deriving DecidableEq, Repr

/-- Embeds the join of `scrapeHTTP` (after `wg.Wait()`): return `scrapeErr`
if set, else `textScrapeErr` if set, else the merged `Result`.  On error the
code returns `nil` for the result pointer, so no partial `Result` escapes. -/
def scrapeHTTPJoin {ε α β : Type} (p : FetchOutcome ε α) (s : FetchOutcome ε β) :
    Except ε (ScrapeResult α β) :=
  match (primaryOutcome p).1 with
  | some e => .error e
  | none =>
    match (secondaryOutcome s).1 with
    | some e => .error e
    | none => .ok ⟨(primaryOutcome p).2, (secondaryOutcome s).2⟩

/-!
## Reference functions used to state the verified properties
-/

/-- Reference function: keep one element per run of consecutive equal
strings, the comparison seeded with `last` (the previously kept element);
this is the collapsing `MetricTypeString`'s `lastType` check performs. -/
def dedupAdjFrom (last : String) : List String → List String
  | [] => []
  | x :: xs => if last ≠ x then x :: dedupAdjFrom x xs else dedupAdjFrom last xs

/-- Reference function: `"|" ++ x` for each element, concatenated. -/
def prefixJoin : List String → String
  | [] => ""
  | x :: xs => "|" ++ x ++ prefixJoin xs

/-- Reference function: elements joined with a `"|"` separator. -/
def joinBar : List String → String
  | [] => ""
  | [x] => x
  | x :: y :: xs => x ++ "|" ++ joinBar (y :: xs)

/-- The values label `name` takes across a `SeriesSet`, in iteration order
(one occurrence per series carrying the label). -/
def labelOccurrences (s : SeriesSet) (name : String) : List String :=
  ((s.map fun p => p.2.Labels).flatten.filter fun l => l.1 = name).map Prod.snd

/-- The inner value set `labelValueSet[name]` (empty when absent). -/
def valuesOf (m : List (String × List String)) (name : String) : List String :=
  (alookup m name).getD []

/-- The spec's `LabelStats` example set: label `method` appears as `GET` on
two series and `POST` on one (literal hash keys, as in the unit tests). -/
def methodSet : SeriesSet :=
  [([("k", "1")], Series.mk "f" [("__name__", "f"), ("method", "GET")] "counter" 0),
   ([("k", "2")], Series.mk "f" [("__name__", "f"), ("method", "GET")] "counter" 0),
   ([("k", "3")], Series.mk "f" [("__name__", "f"), ("method", "POST")] "counter" 0)]

/-!
## Association-list lemmas
-/

theorem alookup_aset_self {κ ν : Type} [DecidableEq κ] (m : List (κ × ν)) (k : κ) (v : ν) :
    alookup (aset m k v) k = some v := by
  induction m with
  | nil => simp [aset, alookup]
  | cons p rest ih =>
    by_cases h : p.1 = k
    · simp [aset, h, alookup]
    · simp [aset, h, alookup, ih]

theorem alookup_aset_ne {κ ν : Type} [DecidableEq κ] (m : List (κ × ν)) (k k' : κ) (v : ν)
    (h : k' ≠ k) : alookup (aset m k v) k' = alookup m k' := by
  have h2 : ¬(k = k') := fun hc => h hc.symm
  induction m with
  | nil => simp [aset, alookup, h2]
  | cons p rest ih =>
    by_cases hp : p.1 = k
    · subst hp
      simp [aset, alookup, h2]
    · simp [aset, hp, alookup, ih]

theorem akeys_aset {κ ν : Type} [DecidableEq κ] (m : List (κ × ν)) (k : κ) (v : ν) :
    akeys (aset m k v) = if k ∈ akeys m then akeys m else akeys m ++ [k] := by
  induction m with
  | nil => simp [aset, akeys]
  | cons p rest ih =>
    by_cases h : p.1 = k
    · simp [aset, h, akeys]
    · have h2 : ¬(k = p.1) := fun hc => h hc.symm
      simp only [aset, if_neg h, akeys, List.map_cons] at ih ⊢
      rw [ih]
      by_cases hm : k ∈ List.map Prod.fst rest
      · rw [if_pos hm, if_pos (by simp [hm])]
      · rw [if_neg hm, if_neg (by simp [hm, h2])]
        simp

theorem mem_akeys_aset {κ ν : Type} [DecidableEq κ] (m : List (κ × ν)) (k k' : κ) (v : ν) :
    k' ∈ akeys (aset m k v) ↔ k' ∈ akeys m ∨ k' = k := by
  rw [akeys_aset]
  split
  · next h => constructor
              · exact fun hm => Or.inl hm
              · rintro (hm | rfl)
                · exact hm
                · exact h
  · simp

theorem nodup_akeys_aset {κ ν : Type} [DecidableEq κ] (m : List (κ × ν)) (k : κ) (v : ν)
    (hm : (akeys m).Nodup) : (akeys (aset m k v)).Nodup := by
  rw [akeys_aset]
  split
  · exact hm
  · next h => simp [List.nodup_append, hm, h]

theorem length_eq_length_akeys {κ ν : Type} (m : List (κ × ν)) :
    m.length = (akeys m).length := by
  simp [akeys]

theorem mem_aset_elim {κ ν : Type} [DecidableEq κ] :
    ∀ (m : List (κ × ν)) (k : κ) (v : ν) (p : κ × ν), p ∈ aset m k v → p ∈ m ∨ p = (k, v)
  | [], k, v, p, hp => by
    simp [aset] at hp
    exact Or.inr hp
  | q :: rest, k, v, p, hp => by
    by_cases h : q.1 = k
    · simp [aset, h] at hp
      rcases hp with rfl | hp
      · exact Or.inr rfl
      · exact Or.inl (List.mem_cons_of_mem _ hp)
    · simp [aset, h] at hp
      rcases hp with rfl | hp
      · exact Or.inl (List.mem_cons_self _ _)
      · rcases mem_aset_elim rest k v p hp with h1 | h1
        · exact Or.inl (List.mem_cons_of_mem _ h1)
        · exact Or.inr h1

/-!
## Aggregator lemmas: what `metrics[name][hash] = series` accumulates
-/

theorem setOf_insertSeries_self (m : SeriesMap) (fam : String) (h : LabelSet) (s : Series) :
    setOf (insertSeries m fam h s) fam = aset (setOf m fam) h s := by
  simp [setOf, insertSeries, alookup_aset_self]

theorem setOf_insertSeries_ne (m : SeriesMap) (fam fam' : String) (h : LabelSet) (s : Series)
    (hne : fam' ≠ fam) : setOf (insertSeries m fam h s) fam' = setOf m fam' := by
  simp [setOf, insertSeries, alookup_aset_ne _ _ _ _ hne]

theorem mem_akeys_setOf_aggregateFrom :
    ∀ (l : List (String × LabelSet × Series)) (m : SeriesMap) (fam : String) (k : LabelSet),
      k ∈ akeys (setOf (aggregateFrom m l) fam) ↔
        k ∈ akeys (setOf m fam) ∨ k ∈ ((l.filter fun t => t.1 = fam).map fun t => t.2.1)
  | [], m, fam, k => by simp [aggregateFrom]
  | t :: rest, m, fam, k => by
    rw [aggregateFrom, mem_akeys_setOf_aggregateFrom rest]
    by_cases hf : t.1 = fam
    · rw [← hf, setOf_insertSeries_self, mem_akeys_aset]
      simp only [List.filter_cons, hf]
      simp
      tauto
    · rw [setOf_insertSeries_ne _ _ _ _ _ (fun hc => hf hc.symm)]
      simp only [List.filter_cons, hf]
      simp

theorem nodup_akeys_setOf_aggregateFrom :
    ∀ (l : List (String × LabelSet × Series)) (m : SeriesMap) (fam : String),
      (akeys (setOf m fam)).Nodup → (akeys (setOf (aggregateFrom m l) fam)).Nodup
  | [], _, _, hm => hm
  | t :: rest, m, fam, hm => by
    rw [aggregateFrom]
    refine nodup_akeys_setOf_aggregateFrom rest _ fam ?_
    by_cases hf : t.1 = fam
    · subst hf
      rw [setOf_insertSeries_self]
      exact nodup_akeys_aset _ _ _ hm
    · rw [setOf_insertSeries_ne _ _ _ _ _ (fun hc => hf hc.symm)]
      exact hm

theorem setOf_empty (fam : String) : setOf [] fam = [] := rfl

/-- The crux of cardinality counting: after aggregating a sequence of
insertions into the empty map, the set stored for a family has exactly one
entry per distinct hash filed under that family. -/
theorem cardinality_aggregate (l : List (String × LabelSet × Series)) (fam : String) :
    cardinalityOf (aggregateFrom [] l) fam =
      ((l.filter fun t => t.1 = fam).map fun t => t.2.1).dedup.length := by
  have hnd : (akeys (setOf (aggregateFrom [] l) fam)).Nodup :=
    nodup_akeys_setOf_aggregateFrom l [] fam (by simp [setOf_empty, akeys])
  have hperm :
      (akeys (setOf (aggregateFrom [] l) fam)).Perm
        (((l.filter fun t => t.1 = fam).map fun t => t.2.1).dedup) := by
    rw [List.perm_ext_iff_of_nodup hnd (List.nodup_dedup _)]
    intro a
    rw [List.mem_dedup, mem_akeys_setOf_aggregateFrom l [] fam a]
    simp [setOf_empty, akeys]
  calc cardinalityOf (aggregateFrom [] l) fam
      = (akeys (setOf (aggregateFrom [] l) fam)).length := by
        simp [cardinalityOf, Cardinality, akeys]
    _ = _ := hperm.length_eq

/-!
## The parser loop is the aggregation of its filed insertions
-/

theorem extract_foldl_eq_aggregate :
    ∀ (entries : List Entry) (m : SeriesMap) (ty base : String),
      (entries.foldl extractStep ⟨m, ty, base⟩).metrics =
        aggregateFrom m (filedTriplesFrom ty base entries)
  | [], _, _, _ => rfl
  | .typEntry n t :: rest, m, ty, base => by
    rw [List.foldl_cons, filedTriplesFrom]
    exact extract_foldl_eq_aggregate rest m t n
  | .seriesEntry lset ct :: rest, m, ty, base => by
    rw [List.foldl_cons, filedTriplesFrom]
    by_cases hnm : labelsGet lset "__name__" = ""
    · rw [if_pos hnm]
      show (rest.foldl extractStep (extractStep ⟨m, ty, base⟩ (.seriesEntry lset ct))).metrics = _
      rw [show extractStep ⟨m, ty, base⟩ (.seriesEntry lset ct) = ⟨m, ty, base⟩ by
        simp [extractStep, hnm]]
      exact extract_foldl_eq_aggregate rest m ty base
    · rw [if_neg hnm]
      show (rest.foldl extractStep (extractStep ⟨m, ty, base⟩ (.seriesEntry lset ct))).metrics = _
      rw [show extractStep ⟨m, ty, base⟩ (.seriesEntry lset ct) =
            ⟨insertSeries m (if ty = "histogram" ∨ ty = "summary" then base
                             else labelsGet lset "__name__")
               (lsetHash lset)
               (mkSeries (if ty = "histogram" ∨ ty = "summary" then base
                          else labelsGet lset "__name__") lset ty ct), ty, base⟩ by
        simp [extractStep, hnm, mkSeries]]
      rw [aggregateFrom]
      exact extract_foldl_eq_aggregate rest _ ty base
  | .histogramEntry lset ct :: rest, m, ty, base => by
    rw [List.foldl_cons, filedTriplesFrom]
    by_cases hnm : labelsGet lset "__name__" = ""
    · rw [if_pos hnm]
      show (rest.foldl extractStep (extractStep ⟨m, ty, base⟩ (.histogramEntry lset ct))).metrics = _
      rw [show extractStep ⟨m, ty, base⟩ (.histogramEntry lset ct) = ⟨m, ty, base⟩ by
        simp [extractStep, hnm]]
      exact extract_foldl_eq_aggregate rest m ty base
    · rw [if_neg hnm]
      show (rest.foldl extractStep (extractStep ⟨m, ty, base⟩ (.histogramEntry lset ct))).metrics = _
      rw [show extractStep ⟨m, ty, base⟩ (.histogramEntry lset ct) =
            ⟨insertSeries m (labelsGet lset "__name__") (lsetHash lset)
               (mkSeries (labelsGet lset "__name__") lset "native_histogram" ct), ty, base⟩ by
        simp [extractStep, hnm, mkSeries]]
      rw [aggregateFrom]
      exact extract_foldl_eq_aggregate rest _ ty base
  | .badEntry :: rest, m, ty, base => by
    rw [List.foldl_cons, filedTriplesFrom]
    exact extract_foldl_eq_aggregate rest m ty base
  | .otherEntry :: rest, m, ty, base => by
    rw [List.foldl_cons, filedTriplesFrom]
    exact extract_foldl_eq_aggregate rest m ty base

theorem extractMetrics_eq_aggregate (entries : List Entry) :
    extractMetrics entries = aggregateFrom [] (filedTriplesFrom "" "" entries) :=
  extract_foldl_eq_aggregate entries [] "" ""

/-- Every insertion the parser files carries a series whose `Name` is the
family key it is filed under. -/
theorem filedTriples_name :
    ∀ (entries : List Entry) (ty base : String),
      ∀ t ∈ filedTriplesFrom ty base entries, t.2.2.Name = t.1
  | [], _, _ => by simp [filedTriplesFrom]
  | .typEntry n t0 :: rest, ty, base => by
    rw [filedTriplesFrom]
    exact filedTriples_name rest t0 n
  | .seriesEntry lset ct :: rest, ty, base => by
    rw [filedTriplesFrom]
    by_cases hnm : labelsGet lset "__name__" = ""
    · rw [if_pos hnm]
      exact filedTriples_name rest ty base
    · rw [if_neg hnm]
      intro t ht
      rcases List.mem_cons.mp ht with rfl | ht
      · rfl
      · exact filedTriples_name rest ty base t ht
  | .histogramEntry lset ct :: rest, ty, base => by
    rw [filedTriplesFrom]
    by_cases hnm : labelsGet lset "__name__" = ""
    · rw [if_pos hnm]
      exact filedTriples_name rest ty base
    · rw [if_neg hnm]
      intro t ht
      rcases List.mem_cons.mp ht with rfl | ht
      · rfl
      · exact filedTriples_name rest ty base t ht
  | .badEntry :: rest, ty, base => by
    rw [filedTriplesFrom]
    exact filedTriples_name rest ty base
  | .otherEntry :: rest, ty, base => by
    rw [filedTriplesFrom]
    exact filedTriples_name rest ty base

/-- Aggregation preserves the family-name invariant of stored series. -/
theorem aggregateFrom_name_inv :
    ∀ (l : List (String × LabelSet × Series)) (m : SeriesMap),
      (∀ fam set h s, alookup m fam = some set → (h, s) ∈ set → s.Name = fam) →
      (∀ t ∈ l, t.2.2.Name = t.1) →
      ∀ fam set h s, alookup (aggregateFrom m l) fam = some set → (h, s) ∈ set → s.Name = fam
  | [], _, hm, _ => hm
  | t :: rest, m, hm, hl => by
    rw [aggregateFrom]
    refine aggregateFrom_name_inv rest _ ?_ fun t' ht' => hl t' (List.mem_cons_of_mem _ ht')
    intro fam set h s hset hmem
    by_cases hf : t.1 = fam
    · subst hf
      rw [insertSeries, alookup_aset_self] at hset
      cases hset
      rcases mem_aset_elim _ _ _ _ hmem with hold | heq
      · rcases hlook : alookup m t.1 with _ | set0
        · rw [hlook] at hold
          simp at hold
        · rw [hlook] at hold
          exact hm t.1 set0 h s hlook hold
      · have hs : s = t.2.2 := congrArg Prod.snd heq
        rw [hs]
        exact hl t (List.mem_cons_self _ _)
    · rw [insertSeries, alookup_aset_ne _ _ _ _ (fun hc => hf hc.symm)] at hset
      exact hm fam set h s hset hmem

theorem akeys_aggregateFrom_of_const (base : String) :
    ∀ (l : List (String × LabelSet × Series)) (m : SeriesMap),
      (∀ t ∈ l, t.1 = base) → akeys m = [base] → akeys (aggregateFrom m l) = [base]
  | [], _, _, hm => hm
  | t :: rest, m, hl, hm => by
    rw [aggregateFrom]
    refine akeys_aggregateFrom_of_const base rest _
      (fun t' ht' => hl t' (List.mem_cons_of_mem _ ht')) ?_
    have ht : t.1 = base := hl t (List.mem_cons_self _ _)
    rw [insertSeries, ht, akeys_aset, hm]
    simp

/-- When the active type is histogram or summary and every entry is named,
each plain series entry is filed under the base family name. -/
theorem filedTriples_series_all (base ty : String)
    (hty : ty = "histogram" ∨ ty = "summary") :
    ∀ (lsets : List LabelSet), (∀ l ∈ lsets, labelsGet l "__name__" ≠ "") →
      filedTriplesFrom ty base (lsets.map fun l => .seriesEntry l 0) =
        lsets.map fun l => (base, lsetHash l, mkSeries base l ty 0)
  | [], _ => rfl
  | l0 :: ls, hname => by
    rw [List.map_cons, List.map_cons, filedTriplesFrom,
      if_neg (hname l0 (List.mem_cons_self _ _)), if_pos hty]
    rw [filedTriples_series_all base ty hty ls fun l hl => hname l (List.mem_cons_of_mem _ hl)]

/-- C1: while the active type declaration is histogram or summary, every
plain series entry (whatever suffix its own `__name__` carries) is stored
under the base family name from the most recent type declaration: the
resulting `SeriesMap` has exactly the one family key `base`, and that
family's cardinality is the number of distinct label-set hashes across all
the entries combined. -/
theorem c1_histogram_summary_grouping (base ty : String) (lsets : List LabelSet)
    (hty : ty = "histogram" ∨ ty = "summary")
    (hname : ∀ l ∈ lsets, labelsGet l "__name__" ≠ "")
    (hne : lsets ≠ []) :
    akeys (extractMetrics (.typEntry base ty :: lsets.map fun l => .seriesEntry l 0)) = [base]
  ∧ cardinalityOf (extractMetrics (.typEntry base ty :: lsets.map fun l => .seriesEntry l 0)) base
      = (lsets.map lsetHash).dedup.length := by
  have htr : filedTriplesFrom "" "" (.typEntry base ty :: lsets.map fun l => .seriesEntry l 0)
      = lsets.map fun l => (base, lsetHash l, mkSeries base l ty 0) := by
    rw [filedTriplesFrom]
    exact filedTriples_series_all base ty hty lsets hname
  have hagg := extractMetrics_eq_aggregate
    (.typEntry base ty :: lsets.map fun l => .seriesEntry l 0)
  rw [htr] at hagg
  constructor
  · rw [hagg]
    rcases lsets with _ | ⟨l0, ls⟩
    · exact absurd rfl hne
    · rw [List.map_cons, aggregateFrom]
      refine akeys_aggregateFrom_of_const base _ _ ?_ rfl
      intro t ht
      rcases List.mem_map.mp ht with ⟨l, _, rfl⟩
      rfl
  · rw [hagg, cardinality_aggregate]
    have hfil : ((lsets.map fun l => (base, lsetHash l, mkSeries base l ty 0)).filter
        fun t => t.1 = base) = lsets.map fun l => (base, lsetHash l, mkSeries base l ty 0) := by
      refine List.filter_eq_self.mpr ?_
      intro t ht
      rcases List.mem_map.mp ht with ⟨l, _, rfl⟩
      simp
    rw [hfil, List.map_map]
    rfl

/-- Witness for C1 at the spec's own example: `_bucket`, `_sum` and `_count`
entries after `# TYPE request_duration_seconds histogram`. -/
theorem c1_witness :
    akeys (extractMetrics (.typEntry "request_duration_seconds" "histogram" ::
        ([[("__name__", "request_duration_seconds_bucket"), ("le", "0.1")],
          [("__name__", "request_duration_seconds_sum")],
          [("__name__", "request_duration_seconds_count")]].map
            fun l => Entry.seriesEntry l 0))) = ["request_duration_seconds"]
  ∧ cardinalityOf (extractMetrics (.typEntry "request_duration_seconds" "histogram" ::
        ([[("__name__", "request_duration_seconds_bucket"), ("le", "0.1")],
          [("__name__", "request_duration_seconds_sum")],
          [("__name__", "request_duration_seconds_count")]].map
            fun l => Entry.seriesEntry l 0))) "request_duration_seconds" = 3 := by
  have h := c1_histogram_summary_grouping "request_duration_seconds" "histogram"
    [[("__name__", "request_duration_seconds_bucket"), ("le", "0.1")],
     [("__name__", "request_duration_seconds_sum")],
     [("__name__", "request_duration_seconds_count")]]
    (Or.inl rfl) (by decide) (by decide)
  exact ⟨h.1, by rw [h.2]; rfl⟩

/-- C2: a family's cardinality equals the number of distinct label-set
hashes among the insertions filed under that family, and aggregation is
order-independent: permuting the insertion sequence fed to the aggregator
leaves every family's cardinality unchanged. -/
theorem c2_cardinality_distinct_hashes (entries : List Entry) (fam : String) :
    cardinalityOf (extractMetrics entries) fam =
      (((filedTriplesFrom "" "" entries).filter fun t => t.1 = fam).map
        fun t => t.2.1).dedup.length
  ∧ ∀ (l l' : List (String × LabelSet × Series)), l.Perm l' →
      cardinalityOf (aggregateFrom [] l) fam = cardinalityOf (aggregateFrom [] l') fam := by
  constructor
  · rw [extractMetrics_eq_aggregate]
    exact cardinality_aggregate _ fam
  · intro l l' hperm
    rw [cardinality_aggregate, cardinality_aggregate]
    exact (((hperm.filter _).map _).dedup).length_eq

/-- Witness for C2: two orders of the same three insertions (two distinct
hashes) produce the same cardinality. -/
theorem c2_witness :
    cardinalityOf (aggregateFrom []
      [("f", [("__name__", "f"), ("m", "GET")], mkSeries "f" [("__name__", "f"), ("m", "GET")] "counter" 0),
       ("f", [("__name__", "f"), ("m", "POST")], mkSeries "f" [("__name__", "f"), ("m", "POST")] "counter" 0),
       ("f", [("__name__", "f"), ("m", "GET")], mkSeries "f" [("__name__", "f"), ("m", "GET")] "counter" 0)]) "f"
    = cardinalityOf (aggregateFrom []
      [("f", [("__name__", "f"), ("m", "GET")], mkSeries "f" [("__name__", "f"), ("m", "GET")] "counter" 0),
       ("f", [("__name__", "f"), ("m", "GET")], mkSeries "f" [("__name__", "f"), ("m", "GET")] "counter" 0),
       ("f", [("__name__", "f"), ("m", "POST")], mkSeries "f" [("__name__", "f"), ("m", "POST")] "counter" 0)]) "f" :=
  (c2_cardinality_distinct_hashes [] "f").2 _ _ (by decide)

/-- C8: an entry whose label set lacks `__name__` is skipped without
failing: the resulting `SeriesMap` is the one obtained from the remaining
entries alone, so the entry contributes to no family and parsing continues. -/
theorem c8_nameless_entry_skipped (pre post : List Entry) (lset : LabelSet) (ct : Int)
    (e : Entry) (he : e = .seriesEntry lset ct ∨ e = .histogramEntry lset ct)
    (hname : labelsGet lset "__name__" = "") :
    extractMetrics (pre ++ e :: post) = extractMetrics (pre ++ post) := by
  unfold extractMetrics
  rw [List.foldl_append, List.foldl_append, List.foldl_cons]
  rcases he with rfl | rfl
  · rw [show extractStep (pre.foldl extractStep initState) (.seriesEntry lset ct)
        = pre.foldl extractStep initState by simp [extractStep, hname]]
  · rw [show extractStep (pre.foldl extractStep initState) (.histogramEntry lset ct)
        = pre.foldl extractStep initState by simp [extractStep, hname]]

/-- Witness for C8: a nameless series entry in the middle of a payload
changes nothing. -/
theorem c8_witness :
    extractMetrics ([Entry.typEntry "f" "counter"] ++
        Entry.seriesEntry [("job", "x")] 0 :: [Entry.seriesEntry [("__name__", "f")] 0])
      = extractMetrics ([Entry.typEntry "f" "counter"] ++ [Entry.seriesEntry [("__name__", "f")] 0]) :=
  c8_nameless_entry_skipped [Entry.typEntry "f" "counter"] [Entry.seriesEntry [("__name__", "f")] 0]
    [("job", "x")] 0 _ (Or.inl rfl) (by decide)

/-- C10: every series stored in a family's `SeriesSet` has its `Name` field
equal to the family key, for every payload the parser processes (plain,
regrouped histogram/summary, and native-histogram insertions alike). -/
theorem c10_family_name_invariant (entries : List Entry) (fam : String) (set : SeriesSet)
    (h : LabelSet) (s : Series)
    (hfam : alookup (extractMetrics entries) fam = some set)
    (hmem : (h, s) ∈ set) : s.Name = fam := by
  rw [extractMetrics_eq_aggregate] at hfam
  exact aggregateFrom_name_inv _ []
    (fun fam' set' h' s' hl => by simp [alookup] at hl)
    (filedTriples_name entries "" "") fam set h s hfam hmem

/-- Witness for C10 on a concrete two-entry payload. -/
theorem c10_witness :
    (Series.mk "f" [("__name__", "f")] "counter" 0).Name = "f" :=
  c10_family_name_invariant [.typEntry "f" "counter", .seriesEntry [("__name__", "f")] 0] "f"
    [([("__name__", "f")], Series.mk "f" [("__name__", "f")] "counter" 0)]
    [("__name__", "f")] (Series.mk "f" [("__name__", "f")] "counter" 0)
    (by decide) (by decide)

/-- C3: on both read paths the size check fails exactly when the source body
reaches the limit, and returns the full body when it is strictly below the
limit (`limit - 1` bytes or shorter). -/
theorem c3_size_limit (body fileBody : List Nat) (limit : Nat) :
    (readResponse 200 body limit = .error (.sizeLimitExceeded limit) ↔ limit ≤ body.length)
  ∧ (body.length < limit → readResponse 200 body limit = .ok body)
  ∧ (scrapeFileRead fileBody limit = .error (.sizeLimitExceeded limit) ↔ limit ≤ fileBody.length)
  ∧ (fileBody.length < limit → scrapeFileRead fileBody limit = .ok fileBody) := by
  have key : ∀ (b : List Nat) (n : Nat),
      (scrapeFileRead b n = .error (.sizeLimitExceeded n) ↔ n ≤ b.length)
    ∧ (b.length < n → scrapeFileRead b n = .ok b) := by
    intro b n
    constructor
    · by_cases h : n ≤ b.length
      · rw [scrapeFileRead, limitReadAll, if_pos (by simp [List.length_take]; omega)]
        simp [h]
      · rw [scrapeFileRead, limitReadAll, if_neg (by simp [List.length_take]; omega)]
        simp [h]
    · intro h
      rw [scrapeFileRead, limitReadAll, if_neg (by simp [List.length_take]; omega)]
      rw [List.take_of_length_le (Nat.le_of_lt h)]
  have hhttp : ∀ (b : List Nat) (n : Nat), readResponse 200 b n = scrapeFileRead b n := by
    intro b n
    rw [readResponse, if_neg (by decide)]
    rfl
  exact ⟨by rw [hhttp]; exact (key body limit).1,
         fun h => by rw [hhttp]; exact (key body limit).2 h,
         (key fileBody limit).1,
         (key fileBody limit).2⟩

/-- Witness for C3 at limit 3 with bodies of length 3 (fails) and 2
(succeeds in full). -/
theorem c3_witness :
    readResponse 200 [10, 20, 30] 3 = .error (.sizeLimitExceeded 3)
  ∧ readResponse 200 [10, 20] 3 = .ok [10, 20]
  ∧ scrapeFileRead [10, 20, 30] 3 = .error (.sizeLimitExceeded 3)
  ∧ scrapeFileRead [10, 20] 3 = .ok [10, 20] := by
  refine ⟨(c3_size_limit [10, 20, 30] [10, 20, 30] 3).1.mpr (by decide),
          (c3_size_limit [10, 20] [10, 20] 3).2.1 (by decide),
          (c3_size_limit [10, 20, 30] [10, 20, 30] 3).2.2.1.mpr (by decide),
          (c3_size_limit [10, 20] [10, 20] 3).2.2.2 (by decide)⟩

/-- C4: if either of the two concurrent fetches fails at any step, the join
returns an error and no (partial) `Result`; a success carries both fetches'
full values; and whenever the primary fetch recorded an error, that error —
the first one the sequential join discovers — is the one returned.  The
hypothesis couples the two `setupRequest` outcomes: both goroutines build
their request from the same `ps.scrapeURL` with `http.NewRequest`, so one
fails at setup exactly when the other does. -/
theorem c4_dual_fetch_error_propagation {ε α β : Type}
    (p : FetchOutcome ε α) (s : FetchOutcome ε β)
    (hsetup : (∃ e, p = .setupFailed e) ↔ (∃ e, s = .setupFailed e)) :
    ((¬ ∃ a, p = .ok a) ∨ (¬ ∃ b, s = .ok b) → ∃ e, scrapeHTTPJoin p s = .error e)
  ∧ (∀ r : ScrapeResult α β, scrapeHTTPJoin p s = .ok r →
      (∃ a, p = .ok a ∧ r.Series = some a) ∧ (∃ b, s = .ok b ∧ r.SeriesScrapeText = some b))
  ∧ (∀ e, p = .doFailed e ∨ p = .readFailed e ∨ p = .parseFailed e →
      scrapeHTTPJoin p s = .error e) := by
  cases p <;> cases s <;>
    simp_all [scrapeHTTPJoin, primaryOutcome, secondaryOutcome]

/-- Witness for C4: a failing primary HTTP execution with a successful
secondary fetch yields exactly that error. -/
theorem c4_witness :
    (∃ e, scrapeHTTPJoin (FetchOutcome.doFailed "boom" : FetchOutcome String Nat)
        (FetchOutcome.ok 7 : FetchOutcome String Nat) = .error e)
  ∧ scrapeHTTPJoin (FetchOutcome.doFailed "boom" : FetchOutcome String Nat)
      (FetchOutcome.ok 7 : FetchOutcome String Nat) = .error "boom" := by
  have h := c4_dual_fetch_error_propagation
    (FetchOutcome.doFailed "boom" : FetchOutcome String Nat)
    (FetchOutcome.ok 7 : FetchOutcome String Nat) (by simp)
  exact ⟨h.1 (Or.inl (by simp)), h.2.2 "boom" (Or.inl rfl)⟩

/-- C5 counterexample: `Scrape()` itself performs no source validation.
With both a URL and a file configured it proceeds straight to the file read
(no mutual-exclusivity error), and with neither configured it proceeds to an
HTTP fetch of the empty URL (no no-source error). -/
theorem c5_counterexample :
    scrapeDispatch "http://example.com/metrics" "/tmp/metrics.txt"
      = ScrapeAction.fileRead "/tmp/metrics.txt"
  ∧ scrapeDispatch "" "" = ScrapeAction.httpFetch "" := by
  exact ⟨by decide, by decide⟩

/-- C5 amended: the mutual-exclusivity and no-source checks live in the CLI
command setup (`registerCardinalityCommand`), which runs them before the
scraper is constructed — hence before any network or file I/O; `Scrape()`
itself checks nothing and prefers the file source whenever one is set. -/
theorem c5_source_validation (url file : String) :
    (validateSources url file = some ConfigErr.mutuallyExclusive ↔ (url ≠ "" ∧ file ≠ ""))
  ∧ (validateSources url file = some ConfigErr.noSource ↔ (url = "" ∧ file = ""))
  ∧ (file ≠ "" → scrapeDispatch url file = .fileRead file)
  ∧ (file = "" → scrapeDispatch url file = .httpFetch url) := by
  by_cases hu : url = "" <;> by_cases hf : file = "" <;>
    simp [validateSources, scrapeDispatch, hu, hf]

/-- Witness for C5 (amended) at a concrete configuration with both sources. -/
theorem c5_witness :
    validateSources "http://x" "/f" = some ConfigErr.mutuallyExclusive
  ∧ scrapeDispatch "http://x" "/f" = ScrapeAction.fileRead "/f" := by
  have h := c5_source_validation "http://x" "/f"
  exact ⟨h.1.mpr (by decide), h.2.2.1 (by decide)⟩

theorem acceptParts_length (sps : List ScrapeProtocol) :
    ∀ w : Int, (acceptParts sps w).length = sps.length + 1 := by
  induction sps with
  | nil => intro w; rfl
  | cons sp rest ih => intro w; simp [acceptParts, ih]

theorem acceptParts_get :
    ∀ (sps : List ScrapeProtocol) (w : Int) (i : Nat) (hi : i < sps.length),
      (acceptParts sps w)[i]? =
        some (ScrapeProtocolsHeaders (sps.get ⟨i, hi⟩) ++ ";q=0." ++ toString (w - i))
  | [], _, i, hi => absurd hi (by simp)
  | sp :: rest, w, 0, _ => by simp [acceptParts]
  | sp :: rest, w, i + 1, hi => by
    rw [acceptParts]
    rw [List.getElem?_cons_succ, acceptParts_get rest (w - 1) i (by simpa using hi)]
    have hw : w - 1 - (i : Int) = w - ((i + 1 : Nat) : Int) := by push_cast; ring
    rw [hw]
    rfl

theorem acceptParts_last :
    ∀ (sps : List ScrapeProtocol) (w : Int),
      (acceptParts sps w)[sps.length]? = some ("*/*;q=0." ++ toString (w - sps.length)) := by
  intro sps
  induction sps with
  | nil => intro w; simp [acceptParts]
  | cons sp rest ih =>
    intro w
    rw [acceptParts, List.length_cons, List.getElem?_cons_succ, ih (w - 1)]
    have hw : w - 1 - (rest.length : Int) = w - ((rest.length + 1 : Nat) : Int) := by
      push_cast; ring
    rw [hw]

/-- C9 amended: `acceptHeader` deterministically emits one comma-separated
value per requested format, most-preferred first, with quality weights
starting at `0.6` (`0.(N+1)` for the `N = 5` entries of the Prometheus v3
`config.ScrapeProtocolsHeaders` table) and decreasing by `0.1` per
position, terminated by a `*/*` wildcard carrying the lowest weight of all;
the first format carries `0.6`, not `1.0`. -/
theorem c9_accept_header_weights (sps : List ScrapeProtocol) :
    acceptHeader sps = String.intercalate "," (acceptParts sps 6)
  ∧ (acceptParts sps 6).length = sps.length + 1
  ∧ (∀ (i : Nat) (hi : i < sps.length),
      (acceptParts sps 6)[i]? =
        some (ScrapeProtocolsHeaders (sps.get ⟨i, hi⟩) ++ ";q=0." ++ toString (6 - (i : Int))))
  ∧ (acceptParts sps 6)[sps.length]? =
      some ("*/*;q=0." ++ toString (6 - (sps.length : Int))) := by
  refine ⟨rfl, acceptParts_length sps 6, ?_, ?_⟩
  · intro i hi
    exact acceptParts_get sps 6 i hi
  · have h := acceptParts_last sps 6
    exact h

set_option maxRecDepth 16384 in
/-- C9 counterexample: with the full preferred-order protocol list, the
most-preferred format is emitted with quality weight `0.6`, not `1.0`. -/
theorem c9_counterexample :
    acceptHeader primaryAcceptProtocols =
      "application/vnd.google.protobuf;proto=io.prometheus.client.MetricFamily;encoding=delimited;q=0.6,application/openmetrics-text;version=1.0.0;q=0.5,text/plain;version=0.0.4;q=0.4,application/openmetrics-text;version=0.0.1;q=0.3,*/*;q=0.2"
  ∧ acceptHeader primaryAcceptProtocols ≠
      "application/vnd.google.protobuf;proto=io.prometheus.client.MetricFamily;encoding=delimited;q=1.0,application/openmetrics-text;version=1.0.0;q=0.9,text/plain;version=0.0.4;q=0.8,application/openmetrics-text;version=0.0.1;q=0.7,*/*;q=0.6" := by
  exact ⟨by decide, by decide⟩

/-- Witness for C9 (amended): the first emitted value for the primary
preference order carries quality weight `0.6`. -/
theorem c9_witness :
    (acceptParts primaryAcceptProtocols 6)[0]? =
      some "application/vnd.google.protobuf;proto=io.prometheus.client.MetricFamily;encoding=delimited;q=0.6" := by
  have h := (c9_accept_header_weights primaryAcceptProtocols).2.2.1 0 (by decide)
  rw [h]
  decide

/-!
## `MetricTypeString` collapses only consecutive duplicate types
-/

theorem joinBar_eq_prefixJoin : ∀ (x : String) (xs : List String),
    joinBar (x :: xs) = x ++ prefixJoin xs
  | _, [] => by rw [joinBar, prefixJoin, String.append_empty]
  | x, y :: ys => by
    rw [joinBar, joinBar_eq_prefixJoin y ys, prefixJoin]
    simp [String.append_assoc]

theorem append_bar_ne_empty (a b : String) : a ++ "|" ++ b ≠ "" := by
  intro h
  have hlen := congrArg String.length h
  have hbar : ("|" : String).length = 1 := rfl
  simp [String.length_append, hbar] at hlen

theorem normalizeType_ne_empty (t : String) : normalizeType t ≠ "" := by
  rw [normalizeType]
  split
  · decide
  · next h => exact h

theorem mtsLoop_eq : ∀ (l : List String) (ts last : String), ts ≠ "" →
    mtsLoop l ts last = ts ++ prefixJoin (dedupAdjFrom last (l.map normalizeType))
  | [], ts, last, _ => by
    rw [List.map_nil, mtsLoop, dedupAdjFrom, prefixJoin, String.append_empty]
  | t0 :: rest, ts, last, hts => by
    rw [List.map_cons]
    simp only [mtsLoop, dedupAdjFrom]
    by_cases h : last ≠ normalizeType t0
    · rw [if_pos h, if_pos h, if_pos hts]
      rw [mtsLoop_eq rest (ts ++ "|" ++ normalizeType t0) (normalizeType t0)
        (append_bar_ne_empty ts (normalizeType t0))]
      rw [prefixJoin]
      simp [String.append_assoc]
    · rw [if_neg h, if_neg h]
      exact mtsLoop_eq rest ts last hts

theorem chain_dedupAdjFrom : ∀ (l : List String) (last : String),
    List.Chain (· ≠ ·) last (dedupAdjFrom last l)
  | [], _ => .nil
  | x :: xs, last => by
    rw [dedupAdjFrom]
    by_cases h : last ≠ x
    · rw [if_pos h]
      exact List.Chain.cons h (chain_dedupAdjFrom xs x)
    · rw [if_neg h]
      exact chain_dedupAdjFrom xs last

/-- C6 amended: `MetricTypeString` joins the normalized type values of the
member series (empty normalized to `"unknown"`) with `"|"` after collapsing
only runs of consecutive equal values — the appended value is compared
against `lastType`, the most recently appended one, so adjacent entries of
the result always differ but a value can reappear later when equal types
are not adjacent in iteration order. -/
theorem c6_metric_type_string (s : SeriesSet) :
    MetricTypeString s = joinBar (dedupAdjFrom "" (s.map fun p => normalizeType p.2.Ty))
  ∧ (dedupAdjFrom "" (s.map fun p => normalizeType p.2.Ty)).Chain' (· ≠ ·) := by
  constructor
  · rcases s with _ | ⟨p, rest⟩
    · rfl
    · rw [MetricTypeString, if_neg (by simp)]
      rw [List.map_cons, List.map_cons]
      simp only [mtsLoop]
      rw [if_pos (show ("" : String) ≠ normalizeType p.2.Ty from
            fun hc => normalizeType_ne_empty _ hc.symm)]
      rw [if_neg (by simp)]
      rw [String.empty_append]
      rw [mtsLoop_eq (rest.map fun q => q.2.Ty) (normalizeType p.2.Ty) (normalizeType p.2.Ty)
        (normalizeType_ne_empty _)]
      rw [dedupAdjFrom, if_pos (show ("" : String) ≠ normalizeType p.2.Ty from
            fun hc => normalizeType_ne_empty _ hc.symm)]
      rw [joinBar_eq_prefixJoin, List.map_map]
      rfl
  · have h := chain_dedupAdjFrom (s.map fun p => normalizeType p.2.Ty) ""
    rcases hdd : dedupAdjFrom "" (s.map fun p => normalizeType p.2.Ty) with _ | ⟨x, xs⟩
    · rw [hdd]
      exact List.chain'_nil
    · rw [hdd] at h ⊢
      show List.Chain _ x xs
      exact (List.chain_cons.mp h).2

/-- C6 counterexample: with member types iterating as counter, gauge,
counter, the same type value appears twice in the result, so the output is
not duplicate-free. -/
theorem c6_counterexample :
    MetricTypeString
      [([("k", "1")], Series.mk "f" [("__name__", "f"), ("a", "1")] "counter" 0),
       ([("k", "2")], Series.mk "f" [("__name__", "f"), ("a", "2")] "gauge" 0),
       ([("k", "3")], Series.mk "f" [("__name__", "f"), ("a", "3")] "counter" 0)]
      = joinBar ["counter", "gauge", "counter"]
  ∧ ¬ (["counter", "gauge", "counter"] : List String).Nodup := by
  exact ⟨by decide, by decide⟩

/-!
## `LabelStats` distinct-value counting, and where the sorting happens
-/

theorem mem_addVal (vs : List String) (v x : String) : x ∈ addVal vs v ↔ x ∈ vs ∨ x = v := by
  rw [addVal]
  split
  · next h => constructor
              · exact fun hx => Or.inl hx
              · rintro (hx | rfl)
                · exact hx
                · exact h
  · simp

theorem nodup_addVal (vs : List String) (v : String) (h : vs.Nodup) : (addVal vs v).Nodup := by
  rw [addVal]
  split
  · exact h
  · next hv => simp [List.nodup_append, h, hv]

theorem alookup_addValue_self :
    ∀ (m : List (String × List String)) (n v : String),
      alookup (addValue m n v) n = some (addVal (valuesOf m n) v)
  | [], n, v => by simp [addValue, alookup, valuesOf, addVal]
  | p :: rest, n, v => by
    by_cases h : p.1 = n
    · rw [addValue, if_pos h, alookup, if_pos h]
      rw [valuesOf, alookup, if_pos h]
      rfl
    · rw [addValue, if_neg h, alookup, if_neg h]
      rw [valuesOf, alookup, if_neg h]
      exact alookup_addValue_self rest n v

theorem alookup_addValue_ne :
    ∀ (m : List (String × List String)) (n v n' : String), n' ≠ n →
      alookup (addValue m n v) n' = alookup m n'
  | [], n, v, n', h => by
    have h2 : ¬(n = n') := fun hc => h hc.symm
    simp [addValue, alookup, h2]
  | p :: rest, n, v, n', h => by
    by_cases hp : p.1 = n
    · rw [addValue, if_pos hp, alookup, alookup]
      rw [if_neg (fun hc : p.1 = n' => h (hc.symm.trans hp)), if_neg (hp ▸ fun hc : n = n' => h hc.symm)]
    · rw [addValue, if_neg hp, alookup, alookup]
      by_cases hp' : p.1 = n'
      · rw [if_pos hp', if_pos hp']
      · rw [if_neg hp', if_neg hp']
        exact alookup_addValue_ne rest n v n' h

theorem akeys_addValue (m : List (String × List String)) (n v : String) :
    akeys (addValue m n v) = if n ∈ akeys m then akeys m else akeys m ++ [n] := by
  induction m with
  | nil => simp [addValue, akeys]
  | cons p rest ih =>
    by_cases h : p.1 = n
    · rw [addValue, if_pos h]
      simp [akeys, h]
    · have h2 : ¬(n = p.1) := fun hc => h hc.symm
      simp only [addValue, if_neg h, akeys, List.map_cons] at ih ⊢
      rw [ih]
      by_cases hm : n ∈ List.map Prod.fst rest
      · rw [if_pos hm, if_pos (by simp [hm])]
      · rw [if_neg hm, if_neg (by simp [hm, h2])]
        simp

theorem mem_akeys_addValue (m : List (String × List String)) (n v k : String) :
    k ∈ akeys (addValue m n v) ↔ k ∈ akeys m ∨ k = n := by
  rw [akeys_addValue]
  split
  · next h => constructor
              · exact fun hm => Or.inl hm
              · rintro (hm | rfl)
                · exact hm
                · exact h
  · simp

theorem nodup_akeys_addValue (m : List (String × List String)) (n v : String)
    (hm : (akeys m).Nodup) : (akeys (addValue m n v)).Nodup := by
  rw [akeys_addValue]
  split
  · exact hm
  · next h => simp [List.nodup_append, hm, h]

theorem values_nodup_addValue :
    ∀ (m : List (String × List String)) (n v : String),
      (∀ p ∈ m, p.2.Nodup) → ∀ p ∈ addValue m n v, p.2.Nodup
  | [], n, v, _, p, hp => by
    simp [addValue] at hp
    subst hp
    simp
  | q :: rest, n, v, hm, p, hp => by
    by_cases h : q.1 = n
    · rw [addValue, if_pos h] at hp
      rcases List.mem_cons.mp hp with rfl | hp
      · exact nodup_addVal _ _ (hm q (List.mem_cons_self _ _))
      · exact hm p (List.mem_cons_of_mem _ hp)
    · rw [addValue, if_neg h] at hp
      rcases List.mem_cons.mp hp with rfl | hp
      · exact hm p (List.mem_cons_self _ _)
      · exact values_nodup_addValue rest n v (fun r hr => hm r (List.mem_cons_of_mem _ hr)) p hp

theorem alookup_of_mem_nodup {κ ν : Type} [DecidableEq κ] :
    ∀ (m : List (κ × ν)), (akeys m).Nodup → ∀ p ∈ m, alookup m p.1 = some p.2
  | [], _, p, hp => absurd hp (List.not_mem_nil p)
  | q :: rest, hm, p, hp => by
    have hm2 := List.nodup_cons.mp (show (q.1 :: List.map Prod.fst rest).Nodup from hm)
    rcases List.mem_cons.mp hp with rfl | hp
    · rw [alookup, if_pos rfl]
    · have hne : q.1 ≠ p.1 := fun hc => hm2.1 (hc ▸ List.mem_map_of_mem Prod.fst hp)
      rw [alookup, if_neg hne]
      exact alookup_of_mem_nodup rest hm2.2 p hp

theorem mem_of_alookup {κ ν : Type} [DecidableEq κ] :
    ∀ (m : List (κ × ν)) (k : κ) (v : ν), alookup m k = some v → (k, v) ∈ m
  | [], _, _, h => by simp [alookup] at h
  | p :: rest, k, v, h => by
    by_cases hp : p.1 = k
    · rw [alookup, if_pos hp] at h
      refine List.mem_cons.mpr (Or.inl ?_)
      rw [← hp, ← Option.some.inj h]
    · rw [alookup, if_neg hp] at h
      exact List.mem_cons_of_mem _ (mem_of_alookup rest k v h)

theorem mem_valuesOf_foldl_addLabel :
    ∀ (ls : List (String × String)) (m : List (String × List String)) (name x : String),
      x ∈ valuesOf (ls.foldl addLabel m) name ↔
        x ∈ valuesOf m name ∨ (name ≠ "__name__" ∧ (name, x) ∈ ls)
  | [], m, name, x => by simp
  | l :: rest, m, name, x => by
    rw [List.foldl_cons, mem_valuesOf_foldl_addLabel rest (addLabel m l) name x]
    by_cases hl : l.1 = "__name__"
    · rw [show addLabel m l = m by rw [addLabel, if_neg (by simp [hl])]]
      constructor
      · rintro (hx | ⟨hn, hr⟩)
        · exact Or.inl hx
        · exact Or.inr ⟨hn, List.mem_cons_of_mem _ hr⟩
      · rintro (hx | ⟨hn, hmem⟩)
        · exact Or.inl hx
        · rcases List.mem_cons.mp hmem with heq | hr
          · exact absurd ((congrArg Prod.fst heq).trans hl) hn
          · exact Or.inr ⟨hn, hr⟩
    · rw [show addLabel m l = addValue m l.1 l.2 from by rw [addLabel, if_pos hl]]
      by_cases hn : name = l.1
      · subst hn
        rw [show valuesOf (addValue m l.1 l.2) l.1 = addVal (valuesOf m l.1) l.2 by
              rw [valuesOf, alookup_addValue_self, Option.getD_some]]
        rw [mem_addVal]
        constructor
        · rintro ((hx | rfl) | ⟨hne, hr⟩)
          · exact Or.inl hx
          · exact Or.inr ⟨hl, List.mem_cons.mpr (Or.inl (by rw [Prod.mk.eta]))⟩
          · exact Or.inr ⟨hne, List.mem_cons_of_mem _ hr⟩
        · rintro (hx | ⟨hne, hmem⟩)
          · exact Or.inl (Or.inl hx)
          · rcases List.mem_cons.mp hmem with heq | hr
            · exact Or.inl (Or.inr (congrArg Prod.snd heq))
            · exact Or.inr ⟨hne, hr⟩
      · rw [show valuesOf (addValue m l.1 l.2) name = valuesOf m name by
              rw [valuesOf, alookup_addValue_ne m l.1 l.2 name hn, valuesOf]]
        constructor
        · rintro (hx | ⟨hne, hr⟩)
          · exact Or.inl hx
          · exact Or.inr ⟨hne, List.mem_cons_of_mem _ hr⟩
        · rintro (hx | ⟨hne, hmem⟩)
          · exact Or.inl hx
          · rcases List.mem_cons.mp hmem with heq | hr
            · exact absurd (congrArg Prod.fst heq) hn
            · exact Or.inr ⟨hne, hr⟩

theorem mem_akeys_foldl_addLabel :
    ∀ (ls : List (String × String)) (m : List (String × List String)) (name : String),
      name ∈ akeys (ls.foldl addLabel m) ↔
        name ∈ akeys m ∨ (name ≠ "__name__" ∧ name ∈ ls.map Prod.fst)
  | [], m, name => by simp
  | l :: rest, m, name => by
    rw [List.foldl_cons, mem_akeys_foldl_addLabel rest (addLabel m l) name, List.map_cons]
    by_cases hl : l.1 = "__name__"
    · rw [show addLabel m l = m by rw [addLabel, if_neg (by simp [hl])]]
      constructor
      · rintro (hx | ⟨hn, hr⟩)
        · exact Or.inl hx
        · exact Or.inr ⟨hn, List.mem_cons_of_mem _ hr⟩
      · rintro (hx | ⟨hn, hmem⟩)
        · exact Or.inl hx
        · rcases List.mem_cons.mp hmem with heq | hr
          · exact absurd (heq.trans hl) hn
          · exact Or.inr ⟨hn, hr⟩
    · rw [show addLabel m l = addValue m l.1 l.2 from by rw [addLabel, if_pos hl]]
      constructor
      · rintro (hx | ⟨hn, hr⟩)
        · rcases (mem_akeys_addValue m l.1 l.2 name).mp hx with hmx | rfl
          · exact Or.inl hmx
          · exact Or.inr ⟨hl, List.mem_cons_self _ _⟩
        · exact Or.inr ⟨hn, List.mem_cons_of_mem _ hr⟩
      · rintro (hx | ⟨hn, hmem⟩)
        · exact Or.inl ((mem_akeys_addValue m l.1 l.2 name).mpr (Or.inl hx))
        · rcases List.mem_cons.mp hmem with heq | hr
          · exact Or.inl ((mem_akeys_addValue m l.1 l.2 name).mpr (Or.inr heq))
          · exact Or.inr ⟨hn, hr⟩

theorem nodup_akeys_foldl_addLabel :
    ∀ (ls : List (String × String)) (m : List (String × List String)),
      (akeys m).Nodup → (akeys (ls.foldl addLabel m)).Nodup
  | [], _, hm => hm
  | l :: rest, m, hm => by
    rw [List.foldl_cons]
    refine nodup_akeys_foldl_addLabel rest _ ?_
    rw [addLabel]
    split
    · exact nodup_akeys_addValue m l.1 l.2 hm
    · exact hm

theorem values_nodup_foldl_addLabel :
    ∀ (ls : List (String × String)) (m : List (String × List String)),
      (∀ p ∈ m, p.2.Nodup) → ∀ p ∈ ls.foldl addLabel m, p.2.Nodup
  | [], _, hm => hm
  | l :: rest, m, hm => by
    rw [List.foldl_cons]
    refine values_nodup_foldl_addLabel rest _ ?_
    rw [addLabel]
    split
    · exact values_nodup_addValue m l.1 l.2 hm
    · exact hm

theorem foldl_addLabel_flatten :
    ∀ (L : List LabelSet) (m : List (String × List String)),
      (L.flatten).foldl addLabel m = L.foldl (fun m ls => ls.foldl addLabel m) m
  | [], _ => rfl
  | ls :: L, m => by
    rw [List.flatten_cons, List.foldl_append, List.foldl_cons]
    exact foldl_addLabel_flatten L _

theorem collectLabelValues_eq (s : SeriesSet) :
    collectLabelValues s = ((s.map fun p => p.2.Labels).flatten).foldl addLabel [] := by
  rw [collectLabelValues, foldl_addLabel_flatten, List.foldl_map]

theorem LabelStats_eq (s : SeriesSet) :
    LabelStats s = (collectLabelValues s).map fun p => ⟨p.1, p.2.length⟩ := by
  rcases s with _ | ⟨p, rest⟩
  · rfl
  · rw [LabelStats, if_neg (by simp)]

theorem mem_labelOccurrences (s : SeriesSet) (name x : String) :
    x ∈ labelOccurrences s name ↔ (name, x) ∈ (s.map fun p => p.2.Labels).flatten := by
  rw [labelOccurrences]
  constructor
  · intro hx
    rcases List.mem_map.mp hx with ⟨l, hl, rfl⟩
    have hf := List.mem_filter.mp hl
    have hn : l.1 = name := by simpa using hf.2
    rw [show (name, l.2) = l by rw [← hn]]
    exact hf.1
  · intro hmem
    exact List.mem_map.mpr ⟨(name, x), List.mem_filter.mpr ⟨hmem, by simp⟩, rfl⟩

theorem valuesOf_length_eq_dedup (s : SeriesSet) (name : String) (hn : name ≠ "__name__") :
    (valuesOf (collectLabelValues s) name).length = (labelOccurrences s name).dedup.length := by
  have hmem : ∀ x, x ∈ valuesOf (collectLabelValues s) name ↔
      (name, x) ∈ (s.map fun p => p.2.Labels).flatten := by
    intro x
    rw [collectLabelValues_eq, mem_valuesOf_foldl_addLabel]
    simp [valuesOf, alookup, hn]
  have hnodup : (valuesOf (collectLabelValues s) name).Nodup := by
    rcases hv : alookup (collectLabelValues s) name with _ | vs
    · simp [valuesOf, hv]
    · have hpmem := mem_of_alookup (collectLabelValues s) name vs hv
      have hvals : ∀ p ∈ collectLabelValues s, p.2.Nodup := by
        rw [collectLabelValues_eq]
        exact values_nodup_foldl_addLabel _ [] (by simp)
      have := hvals (name, vs) hpmem
      simpa [valuesOf, hv] using this
  have hperm : (valuesOf (collectLabelValues s) name).Perm (labelOccurrences s name).dedup := by
    rw [List.perm_ext_iff_of_nodup hnodup (List.nodup_dedup _)]
    intro x
    rw [hmem x, List.mem_dedup, mem_labelOccurrences]
  exact hperm.length_eq

/-- C7 amended: `LabelStats` reports, for exactly the label names (other
than `__name__`) occurring in the set, the number of distinct values each
takes — so `method` seen as GET, GET, POST counts 2 — but returns them in
map iteration order, unsorted; the descending sort by distinct-value count
happens in the display path (`AsRows`), embedded as `sortedLabelStats`,
whose output is a descending-sorted permutation of `LabelStats`. -/
theorem c7_label_stats (s : SeriesSet) :
    (∀ st ∈ LabelStats s, st.Name ≠ "__name__"
        ∧ st.DistinctValues = (labelOccurrences s st.Name).dedup.length)
  ∧ (∀ name, name ≠ "__name__" → labelOccurrences s name ≠ [] →
      ∃ st ∈ LabelStats s, st.Name = name)
  ∧ (sortedLabelStats s).Perm (LabelStats s)
  ∧ List.Sorted statGE (sortedLabelStats s) := by
  have hkeysnodup : (akeys (collectLabelValues s)).Nodup := by
    rw [collectLabelValues_eq]
    exact nodup_akeys_foldl_addLabel _ [] (by simp [akeys])
  refine ⟨?_, ?_, List.perm_insertionSort statGE _, List.sorted_insertionSort statGE _⟩
  · intro st hst
    rw [LabelStats_eq] at hst
    rcases List.mem_map.mp hst with ⟨p, hp, rfl⟩
    have hkey : p.1 ∈ akeys (collectLabelValues s) := List.mem_map_of_mem Prod.fst hp
    have hkey2 : p.1 ≠ "__name__" := by
      rw [collectLabelValues_eq] at hkey
      rcases (mem_akeys_foldl_addLabel _ [] p.1).mp hkey with h0 | ⟨hne, _⟩
      · simp [akeys] at h0
      · exact hne
    refine ⟨hkey2, ?_⟩
    have hlook := alookup_of_mem_nodup (collectLabelValues s) hkeysnodup p hp
    have hvals : valuesOf (collectLabelValues s) p.1 = p.2 := by
      rw [valuesOf, hlook, Option.getD_some]
    have hlen := valuesOf_length_eq_dedup s p.1 hkey2
    rw [hvals] at hlen
    exact hlen
  · intro name hn hocc
    rcases List.exists_mem_of_ne_nil _ hocc with ⟨x, hx⟩
    have hflat := (mem_labelOccurrences s name x).mp hx
    have hkey : name ∈ akeys (collectLabelValues s) := by
      rw [collectLabelValues_eq]
      exact (mem_akeys_foldl_addLabel _ [] name).mpr
        (Or.inr ⟨hn, List.mem_map_of_mem Prod.fst hflat⟩)
    rcases List.mem_map.mp hkey with ⟨p, hp, hp1⟩
    exact ⟨⟨p.1, p.2.length⟩, by rw [LabelStats_eq]; exact List.mem_map_of_mem _ hp, hp1⟩

/-- C7 counterexample: `LabelStats` itself returns the stats in map
iteration order, not sorted by descending distinct-value count: a set whose
first-seen label has fewer distinct values yields an ascending list. -/
theorem c7_counterexample :
    LabelStats
      [([("k", "1")], Series.mk "f" [("__name__", "f"), ("a", "x"), ("b", "1")] "counter" 0),
       ([("k", "2")], Series.mk "f" [("__name__", "f"), ("a", "x"), ("b", "2")] "counter" 0)]
      = [⟨"a", 1⟩, ⟨"b", 2⟩]
  ∧ ¬ List.Sorted statGE [(⟨"a", 1⟩ : LabelStat), ⟨"b", 2⟩] := by
  exact ⟨by decide, by decide⟩

/-- Witness for C7 on the spec's example: `method` seen as GET, GET, POST
counts 2 distinct values, and a stat for `method` is present. -/
theorem c7_witness :
    ((⟨"method", 2⟩ : LabelStat).DistinctValues
        = (labelOccurrences methodSet "method").dedup.length)
  ∧ ∃ st ∈ LabelStats methodSet, st.Name = "method" := by
  have h := c7_label_stats methodSet
  exact ⟨(h.1 ⟨"method", 2⟩ (by decide)).2, h.2.1 "method" (by decide) (by decide)⟩

end PromScrape
